import Mathlib

/-!
Verification of the `throttle::linmath::matrix<T>` value type from
`lib/include/matrix.hpp` (files `contiguous_matrix.hpp`, `algorithm.hpp`,
`utility.hpp` and the `containers::vector` backing the row table are external
collaborators; where their behaviour matters it is modelled from the spec).

The embedding mirrors the two-layer storage design of the source: a flat
row-major element buffer (`contiguous_matrix<T>`) plus a row-indirection
table (`m_rows_vec`, a vector of pointers to row heads).  A pointer to a row
head is modelled as the offset of that row's first element inside the buffer.
Elements are rationals: the idealised exact counterpart of the C++
floating-point element type.
-/

namespace Linmath

/-- Error kind raised by shape-checked operations (`throw std::runtime_error`
in the source; the spec calls it `ShapeMismatch`). -/
inductive Err where
  | shapeMismatch
  deriving DecidableEq, Repr

/-- The state of a `matrix<T>` object:
`rows`/`cols` come from the owned `contiguous_matrix` (its `rows()`/`cols()`),
`buf` is the contiguous row-major element buffer, and `rv` models
`m_rows_vec`: entry `i` is the buffer offset of the head of logical row `i`
(the source stores the pointer `data() + offset`). -/
structure Mx where
  rows : Nat
  cols : Nat
  buf : List ℚ
  rv : List Nat
  deriving DecidableEq, Repr

/-- Element read `M[i][j]`: `proxy_row{m_rows_vec[i], cols}` then `m_row[j]`,
i.e. the buffer element at offset `rv[i] + j`. -/
def getE (M : Mx) (i j : Nat) : ℚ :=
  M.buf.getD (M.rv.getD i 0 + j) 0

/-- Element write `M[i][j] = v` through the row table. -/
def setE (M : Mx) (i j : Nat) (v : ℚ) : Mx :=
  { M with buf := M.buf.set (M.rv.getD i 0 + j) v }

/-- `swap_rows(idx1, idx2)`: `std::swap(m_rows_vec[idx1], m_rows_vec[idx2])`.
O(1), element buffer untouched. -/
def swapRows (M : Mx) (i j : Nat) : Mx :=
  { M with rv := (M.rv.set i (M.rv.getD j 0)).set j (M.rv.getD i 0) }

/-- `update_rows_vec()` run on a freshly constructed matrix: row `i` starts at
offset `i * cols` (the source generates `data(), data()+cols, ...`). -/
def freshRv (rows cols : Nat) : List Nat :=
  (List.range rows).map (· * cols)

/-- Modelled from the spec: `contiguous_matrix<T>` is an external collaborator
(only `matrix.hpp` is in scope); per spec §4.1 `from_sequence(rows, cols,
begin, end)` fills `rows*cols` elements in row-major order from the input,
missing positions take the default value (`0`) and excess input is ignored.
A `matrix` constructor builds this buffer and then runs `update_rows_vec`. -/
def mkMatrix (rows cols : Nat) (vals : List ℚ) : Mx :=
  { rows := rows, cols := cols,
    buf := (List.range (rows * cols)).map (fun k => vals.getD k 0),
    rv := freshRv rows cols }

/-- The data-model invariant of `matrix` (spec §3): the row table has `rows`
entries, the buffer has `rows*cols` elements (empty storage only when both
dimensions are zero), and the row-table entries are distinct row-aligned
offsets `k*cols`, `k < rows` — a permutation of the physical row heads. -/
def Wf (M : Mx) : Prop :=
  M.rv.length = M.rows ∧
  M.buf.length = M.rows * M.cols ∧
  (M.rows = 0 ↔ M.cols = 0) ∧
  (∀ i < M.rows, ∃ k < M.rows, M.rv.getD i 0 = k * M.cols) ∧
  (∀ i < M.rows, ∀ j < M.rows, M.rv.getD i 0 = M.rv.getD j 0 → i = j)

instance (M : Mx) : Decidable (Wf M) := by
  unfold Wf
  infer_instance

/-- `square()`: `cols() == rows()`. -/
def square (M : Mx) : Bool := M.cols == M.rows

/-- One row comparison of `equal`: `std::equal((*this)[i].begin(),
(*this)[i].end(), other[i].begin())` — the proxy row of `a` spans exactly
`a.cols` elements, compared pairwise with `other`'s row `i`. -/
def rowEqRead (a b : Mx) (i : Nat) : Bool :=
  (List.range a.cols).all fun j => getE a i j == getE b i j

/-- `equal(other)` together with an element-access count.  The source sets
`res = (rows()==other.rows()) && (cols()==other.cols())`, then for each
`i < m_rows_vec.size()` runs `res = res && std::equal(...)`.  C++ `&&`
short-circuits: when `res` is already `false` the row comparison (and every
element access it would perform) is skipped.  The second component counts the
element reads of the executed row comparisons (`2*cols` per executed call;
an upper bound, since `std::equal` may stop at the first mismatch — it is
exact, `0`, whenever no comparison is executed). -/
def equalT (a b : Mx) : Bool × Nat :=
  (List.range a.rv.length).foldl
    (fun st i => if st.1 then (rowEqRead a b i, st.2 + 2 * a.cols) else (false, st.2))
    (a.rows == b.rows && a.cols == b.cols, 0)

/-- `equal(other)`: the Boolean result alone. -/
def equal (a b : Mx) : Bool := (equalT a b).1

/-- The body of `transpose()`: build `matrix transposed{cols(), rows()}`
(value-initialised to `0`), set `transposed[j][i] = (*this)[i][j]` for all
`i < rows`, `j < cols`; the result replaces the original by move-assignment. -/
def transposeCore (M : Mx) : Mx :=
  (List.range M.rows).foldl
    (fun A i => (List.range M.cols).foldl (fun B j => setE B j i (getE M i j)) A)
    (mkMatrix M.cols M.rows [])

/-- Free `transpose(mat)`: `auto res = mat; res.transpose(); return res;`.
The implicit copy `res = mat` duplicates the buffer but copies the row
pointers verbatim, so `res`'s reads alias `mat`'s storage — harmless here,
because `transpose()` only reads through them (all writes go into the fresh
`transposed` matrix, which then replaces `res` wholesale by move-assignment).
The aliased copy's state is `⟨mat.rows, mat.cols, mat.buf, mat.rv⟩`, i.e.
`mat` itself, so the result is `transposeCore mat`. -/
def transposeF (M : Mx) : Mx := transposeCore M

/-- `operator+=`: shape guard (`throw` before any write), then per row
`std::transform(row_first.begin(), row_first.end(), row_second.cbegin(),
row_first.begin(), std::plus{})`.  Returns the final state of `*this`
together with the error, if any. -/
def addAssign (M N : Mx) : Mx × Option Err :=
  if M.rows ≠ N.rows ∨ M.cols ≠ N.cols then (M, some .shapeMismatch)
  else
    ((List.range M.rows).foldl
      (fun A i => (List.range M.cols).foldl
        (fun B j => setE B i j (getE B i j + getE N i j)) A) M,
     none)

/-- `operator-=`: identical to `operator+=` with `std::minus`. -/
def subAssign (M N : Mx) : Mx × Option Err :=
  if M.rows ≠ N.rows ∨ M.cols ≠ N.cols then (M, some .shapeMismatch)
  else
    ((List.range M.rows).foldl
      (fun A i => (List.range M.cols).foldl
        (fun B j => setE B i j (getE B i j - getE N i j)) A) M,
     none)

/-- Modelled from the spec: `algorithm::multiply_accumulate(a_begin, a_end,
b_begin, init)` lives in the external `algorithm.hpp`; per spec §4.3 it
returns `init + Σ aₖ·bₖ` over the two equal-length ranges, in index order. -/
def multiply_accumulate (a b : List ℚ) (init : ℚ) : ℚ :=
  (a.zip b).foldl (fun acc p => acc + p.1 * p.2) init

/-- The elements of logical row `i`, in column order (what iterating a proxy
row from `begin()` to `end()` yields). -/
def rowList (M : Mx) (i : Nat) : List ℚ :=
  (List.range M.cols).map fun j => getE M i j

/-- `operator*=(const matrix &rhs)`: shape guard, `res{rows(), rhs.cols()}`,
`t_rhs = rhs; t_rhs.transpose();` (the copy only reads `rhs`, cf.
`transposeF`), then `res[i][j] = multiply_accumulate((*this)[i].cbegin(),
(*this)[i].cend(), t_rhs[j].cbegin(), 0)` for `i < rows()`,
`j < t_rhs.rows()`; finally `std::swap(*this, res)`. -/
def mulAssign (M N : Mx) : Mx × Option Err :=
  if M.cols ≠ N.rows then (M, some .shapeMismatch)
  else
    let t := transposeF N
    ((List.range M.rows).foldl
      (fun A i => (List.range t.rows).foldl
        (fun B j => setE B i j (multiply_accumulate (rowList M i) (rowList t j) 0)) A)
      (mkMatrix M.rows N.cols []),
     none)

/-- `max_in_col_greater_eq(col, minimum_row)` with the default comparator
`std::less`: starting from `max_row_idx = minimum_row`, for each
`row ∈ [minimum_row, rows)` update `max_row_idx` to `row` exactly when
`|M[max_row_idx][col]| < |M[row][col]|`; return the final index and the
signed element there. -/
def maxInColGE (M : Mx) (col minRow : Nat) : Nat × ℚ :=
  let best := (List.range' minRow (M.rows - minRow)).foldl
    (fun best row => if |getE M best col| < |getE M row col| then row else best) minRow
  (best, getE M best col)

/-- One eliminated row of `gauss_jordan_elimination`: `coef =
mat[to_elim_row][i] / pivot_elem`, then `mat[to_elim_row][col] -=
coef * mat[i][col]` for every `col < cols`. -/
def elimRow (M : Mx) (i : Nat) (pe : ℚ) (r : Nat) : Mx :=
  let coef := getE M r i / pe
  (List.range M.cols).foldl
    (fun A c => setE A r c (getE A r c - coef * getE A i c)) M

/-- Step `i` of `gauss_jordan_elimination`: partial pivot
`(pivot_row, pivot_elem) = max_in_col_greater_eq(i, i)`, `swap_rows(i,
pivot_row)`, then eliminate every row `to_elim_row ≠ i`. -/
def gjStep (M : Mx) (i : Nat) : Mx :=
  let p := maxInColGE M i i
  let M1 := swapRows M i p.1
  (List.range M1.rows).foldl (fun A r => if i = r then A else elimRow A i p.2 r) M1

/-- `gauss_jordan_elimination()`: the steps for `i = 0 … rows-1`, in place. -/
def gje (M : Mx) : Mx := (List.range M.rows).foldl gjStep M

/-- The determinant's final read: `res = 1; for i < rows: res *= tmp[i][i]`. -/
def diagProd (M : Mx) : ℚ :=
  (List.range M.rows).foldl (fun acc i => acc * getE M i i) 1

/-- `determinant()` (floating-point overload), including its effect on the
object it is called on.  The source does `matrix tmp = *this;` — `matrix`
declares no copy constructor, so the implicit one copies the owned
`contiguous_matrix` (an independent buffer with the same contents) and copies
`m_rows_vec` element-wise.  `m_rows_vec` holds raw pointers into the ORIGINAL
matrix's buffer, so every element access `tmp[i][j]` made by
`gauss_jordan_elimination` reads and writes the original buffer (the fresh
copied buffer is never accessed through `tmp[...]`).  Hence the elimination
state is exactly `⟨M.rows, M.cols, M.buf, M.rv⟩ = M` itself, the returned
value is the diagonal product read through `tmp`'s (swapped) row table, and
the post-state of `*this` keeps its own untouched row table over the
now-overwritten buffer. -/
def determinant (M : Mx) : Except Err (ℚ × Mx) :=
  if ¬ square M then .error .shapeMismatch
  else
    let t := gje M
    .ok (diagProd t, { rows := M.rows, cols := M.cols, buf := t.buf, rv := M.rv })

/-- The value returned by `determinant()`. -/
def detVal (M : Mx) : Except Err ℚ := (determinant M).map fun p => p.1

/-- The state of the matrix object after a call to `determinant()` (on the
error path the guard throws before anything happens). -/
def detPost (M : Mx) : Mx :=
  match determinant M with
  | .ok p => p.2
  | .error _ => M

/-- The logical contents of `M`, row-major. -/
def flatten (M : Mx) : List ℚ :=
  (List.range M.rows).flatMap fun i => rowList M i

/-- The copy described by the spec (§3 Ownership): an independent buffer with
`M`'s logical contents and a fresh row table in logical order. -/
def specCopy (M : Mx) : Mx := mkMatrix M.rows M.cols (flatten M)

/-! ### Generic fold toolkit -/

/-- A predicate preserved by every step of a left fold holds of its result. -/
theorem foldl_pres {α : Type _} {β : Type _} (P : α → Prop) (f : α → β → α)
    (l : List β) (a : α) (h : P a) (hf : ∀ a x, P a → P (f a x)) :
    P (l.foldl f a) := by
  induction l generalizing a with
  | nil => exact h
  | cons x xs ih => exact ih _ (hf _ _ h)

/-- Two left folds over the same list whose steps preserve a relation stay
related. -/
theorem foldl_rel {α : Type _} {β : Type _} (R : α → α → Prop) (f g : α → β → α)
    (l : List β) (a b : α) (h : R a b)
    (hstep : ∀ x ∈ l, ∀ a b, R a b → R (f a x) (g b x)) :
    R (l.foldl f a) (l.foldl g b) := by
  induction l generalizing a b with
  | nil => exact h
  | cons x xs ih =>
      exact ih _ _ (hstep x (by simp) _ _ h) fun y hy => hstep y (by simp [hy])

/-- `getD` after `set`, at an in-range read position. -/
theorem getD_set {α : Type _} (l : List α) (m n : Nat) (a d : α)
    (hn : n < l.length) :
    (l.set m a).getD n d = if m = n then a else l.getD n d := by
  rw [List.getD_eq_getElem _ _ (by simpa using hn), List.getElem_set]
  split
  · rfl
  · exact (List.getD_eq_getElem _ _ hn).symm

/-! ### Structural lemmas about the embedding's primitives -/

@[simp] theorem setE_rows (M : Mx) (i j : Nat) (v : ℚ) : (setE M i j v).rows = M.rows := rfl

@[simp] theorem setE_cols (M : Mx) (i j : Nat) (v : ℚ) : (setE M i j v).cols = M.cols := rfl

@[simp] theorem setE_rv (M : Mx) (i j : Nat) (v : ℚ) : (setE M i j v).rv = M.rv := rfl

@[simp] theorem setE_buf_length (M : Mx) (i j : Nat) (v : ℚ) :
    (setE M i j v).buf.length = M.buf.length := by
  simp [setE]

@[simp] theorem swapRows_rows (M : Mx) (a b : Nat) : (swapRows M a b).rows = M.rows := rfl

@[simp] theorem swapRows_cols (M : Mx) (a b : Nat) : (swapRows M a b).cols = M.cols := rfl

@[simp] theorem swapRows_buf (M : Mx) (a b : Nat) : (swapRows M a b).buf = M.buf := rfl

@[simp] theorem swapRows_rv_length (M : Mx) (a b : Nat) :
    (swapRows M a b).rv.length = M.rv.length := by
  simp [swapRows]

@[simp] theorem mkMatrix_rows (r c : Nat) (vals : List ℚ) : (mkMatrix r c vals).rows = r := rfl

@[simp] theorem mkMatrix_cols (r c : Nat) (vals : List ℚ) : (mkMatrix r c vals).cols = c := rfl

/-- Row heads of a fresh matrix: `rv[i] = i * cols`. -/
theorem freshRv_getD (rows cols : Nat) {i : Nat} (hi : i < rows) :
    (freshRv rows cols).getD i 0 = i * cols := by
  unfold freshRv
  rw [List.getD_eq_getElem _ _ (by simpa using hi), List.getElem_map, List.getElem_range]

/-- In-range logical positions address in-range buffer offsets. -/
theorem offset_lt (M : Mx) (hwf : Wf M) {i j : Nat} (hi : i < M.rows) (hj : j < M.cols) :
    M.rv.getD i 0 + j < M.buf.length := by
  obtain ⟨k, hk, he⟩ := hwf.2.2.2.1 i hi
  rw [he, hwf.2.1]
  calc k * M.cols + j < k * M.cols + M.cols := by omega
    _ = (k + 1) * M.cols := by ring
    _ ≤ M.rows * M.cols := Nat.mul_le_mul_right _ hk

/-- Reading back after `setE`, on a well-formed matrix: only the written
logical cell changes (distinct logical cells occupy distinct offsets). -/
theorem getE_setE (M : Mx) (hwf : Wf M) {a b i j : Nat} (v : ℚ)
    (ha : a < M.rows) (hb : b < M.cols) (hi : i < M.rows) (hj : j < M.cols) :
    getE (setE M a b v) i j = if i = a ∧ j = b then v else getE M i j := by
  have hcpos : 0 < M.cols := by omega
  unfold getE setE
  simp only
  rw [getD_set _ _ _ _ _ (offset_lt M hwf hi hj)]
  obtain ⟨ka, hka, hea⟩ := hwf.2.2.2.1 a ha
  obtain ⟨ki, hki, hei⟩ := hwf.2.2.2.1 i hi
  by_cases hsame : i = a ∧ j = b
  · obtain ⟨h1, h2⟩ := hsame
    subst h1; subst h2
    simp
  · have : ¬ (M.rv.getD a 0 + b = M.rv.getD i 0 + j) := by
      intro he
      rw [hea, hei] at he
      have hk : ka = ki := by
        have h1 : (ka * M.cols + b) / M.cols = ka := by
          rw [Nat.mul_comm ka, Nat.mul_add_div hcpos, Nat.div_eq_of_lt hb]
          omega
        have h2 : (ki * M.cols + j) / M.cols = ki := by
          rw [Nat.mul_comm ki, Nat.mul_add_div hcpos, Nat.div_eq_of_lt hj]
          omega
        rw [← h1, ← h2, he]
      have hia : i = a := by
        apply hwf.2.2.2.2 i hi a ha
        rw [hea, hei, hk]
      have hjb : j = b := by
        rw [hk] at he
        omega
      exact hsame ⟨hia, hjb⟩
    rw [if_neg this, if_neg hsame]

/-- The row table after `swap_rows`. -/
theorem swapRows_rvD (M : Mx) {a b : Nat} (ha : a < M.rv.length) (hb : b < M.rv.length)
    (i : Nat) :
    (swapRows M a b).rv.getD i 0 =
      if i = b then M.rv.getD a 0 else if i = a then M.rv.getD b 0 else M.rv.getD i 0 := by
  unfold swapRows
  simp only
  by_cases hlen : i < M.rv.length
  · rw [getD_set _ _ _ _ _ (by simpa using hlen), getD_set _ _ _ _ _ hlen]
    simp only [@eq_comm ℕ i b, @eq_comm ℕ i a]
  · have h1 : i ≠ a := by omega
    have h2 : i ≠ b := by omega
    rw [if_neg h2, if_neg h1,
      List.getD_eq_default _ _ (by simp; omega),
      List.getD_eq_default _ _ (by omega)]

/-- Element reads after `swap_rows`: logical rows `a` and `b` exchange. -/
theorem getE_swapRows (M : Mx) {a b : Nat} (ha : a < M.rv.length) (hb : b < M.rv.length)
    (i j : Nat) :
    getE (swapRows M a b) i j =
      if i = b then getE M a j else if i = a then getE M b j else getE M i j := by
  unfold getE
  rw [swapRows_buf, swapRows_rvD M ha hb]
  split_ifs <;> rfl

/-- `setE` preserves the data-model invariant. -/
theorem wf_setE (M : Mx) (hwf : Wf M) (i j : Nat) (v : ℚ) : Wf (setE M i j v) := by
  obtain ⟨h1, h2, h3, h4, h5⟩ := hwf
  exact ⟨h1, by simpa using h2, h3, h4, h5⟩

/-- `swap_rows` preserves the data-model invariant. -/
theorem wf_swapRows (M : Mx) (hwf : Wf M) {a b : Nat} (ha : a < M.rows) (hb : b < M.rows) :
    Wf (swapRows M a b) := by
  obtain ⟨h1, h2, h3, h4, h5⟩ := hwf
  have ha' : a < M.rv.length := by omega
  have hb' : b < M.rv.length := by omega
  refine ⟨by simpa using h1, by simpa using h2, h3, ?_, ?_⟩
  · intro i hi
    rw [swapRows_rvD M ha' hb']
    split_ifs
    · exact h4 a ha
    · exact h4 b hb
    · exact h4 i hi
  · intro i hi j hj
    rw [swapRows_rvD M ha' hb', swapRows_rvD M ha' hb']
    split_ifs <;> intro he <;>
      first
        | (have hxy := h5 _ ha _ ha he; omega)
        | (have hxy := h5 _ ha _ hb he; omega)
        | (have hxy := h5 _ ha _ hj he; omega)
        | (have hxy := h5 _ hb _ ha he; omega)
        | (have hxy := h5 _ hb _ hb he; omega)
        | (have hxy := h5 _ hb _ hj he; omega)
        | (have hxy := h5 _ hi _ ha he; omega)
        | (have hxy := h5 _ hi _ hb he; omega)
        | (have hxy := h5 _ hi _ hj he; omega)

/-- Fresh matrices satisfy the invariant (for spec-legal shapes). -/
theorem wf_mkMatrix (rows cols : Nat) (vals : List ℚ) (h : rows = 0 ↔ cols = 0) :
    Wf (mkMatrix rows cols vals) := by
  refine ⟨by simp [mkMatrix, freshRv], by simp [mkMatrix], h, ?_, ?_⟩
  · intro i hi
    rw [mkMatrix_rows] at hi
    rw [show (mkMatrix rows cols vals).rv = freshRv rows cols from rfl,
      freshRv_getD rows cols hi]
    exact ⟨i, by simpa using hi, rfl⟩
  · intro i hi j hj
    rw [mkMatrix_rows] at hi hj
    rw [show (mkMatrix rows cols vals).rv = freshRv rows cols from rfl,
      freshRv_getD rows cols hi, freshRv_getD rows cols hj]
    intro he
    have hc : 0 < cols := by
      rcases Nat.eq_zero_or_pos cols with h0 | h0
      · exact absurd (h.mpr h0) (by omega)
      · exact h0
    exact Nat.eq_of_mul_eq_mul_right hc he

/-- Element reads on a fresh matrix recover the row-major source sequence. -/
theorem getE_mkMatrix (rows cols : Nat) (vals : List ℚ) {i j : Nat}
    (hi : i < rows) (hj : j < cols) :
    getE (mkMatrix rows cols vals) i j = vals.getD (i * cols + j) 0 := by
  unfold getE mkMatrix
  simp only
  rw [freshRv_getD _ _ hi]
  have hb : i * cols + j < rows * cols := by
    calc i * cols + j < i * cols + cols := by omega
      _ = (i + 1) * cols := by ring
      _ ≤ rows * cols := Nat.mul_le_mul_right _ hi
  rw [List.getD_eq_getElem _ _ (by simpa using hb), List.getElem_map, List.getElem_range]

/-! ### Equality -/

/-- Once `res` is `false`, every remaining iteration of `equal`'s loop leaves
the state untouched: the `&&` short-circuit skips the row comparison. -/
theorem equalT_loop_false (a b : Mx) (l : List Nat) (n : Nat) :
    l.foldl
      (fun st i => if st.1 then (rowEqRead a b i, st.2 + 2 * a.cols) else (false, st.2))
      (false, n) = (false, n) := by
  induction l with
  | nil => rfl
  | cons x xs ih => simpa using ih

/-- The Boolean computed by `equal`'s loop is the conjunction of the shape
check with all row comparisons. -/
theorem equalT_fst_eq (a b : Mx) (l : List Nat) (st : Bool × Nat) :
    (l.foldl
      (fun st i => if st.1 then (rowEqRead a b i, st.2 + 2 * a.cols) else (false, st.2))
      st).1 = (st.1 && l.all (rowEqRead a b)) := by
  induction l generalizing st with
  | nil => simp
  | cons x xs ih =>
      rw [List.foldl_cons, ih]
      rcases st with ⟨r, n⟩
      cases r <;> simp [Bool.and_assoc]

/-- `equal` as a conjunction of shape check and row checks. -/
theorem equal_eq_and (a b : Mx) :
    equal a b =
      ((a.rows == b.rows && a.cols == b.cols) &&
        (List.range a.rv.length).all (rowEqRead a b)) := by
  unfold equal equalT
  rw [equalT_fst_eq]

/-- `equal` decides logical pointwise equality (shared characterisation). -/
theorem equal_iff (a b : Mx) (ha : Wf a) :
    equal a b = true ↔
      (a.rows = b.rows ∧ a.cols = b.cols ∧
        ∀ i < a.rows, ∀ j < a.cols, getE a i j = getE b i j) := by
  rw [equal_eq_and, ha.1]
  simp only [Bool.and_eq_true, beq_iff_eq, List.all_eq_true, List.mem_range, rowEqRead]
  tauto

/-! ### Column pivot search -/

/-- Characterisation of the pivot-search fold: starting at `s` over the rows
`s, s+1, …, s+n-1`, it lands on the first row attaining the maximal absolute
value (earlier rows are strictly smaller in absolute value). -/
theorem maxfold_spec (g : Nat → ℚ) (s : Nat) :
    ∀ n, 1 ≤ n →
      s ≤ ((List.range' s n).foldl
          (fun best row => if |g best| < |g row| then row else best) s) ∧
      ((List.range' s n).foldl
          (fun best row => if |g best| < |g row| then row else best) s) < s + n ∧
      (∀ r, s ≤ r → r < s + n →
        |g r| ≤ |g ((List.range' s n).foldl
          (fun best row => if |g best| < |g row| then row else best) s)|) ∧
      (∀ r, s ≤ r →
        r < ((List.range' s n).foldl
          (fun best row => if |g best| < |g row| then row else best) s) →
        |g r| < |g ((List.range' s n).foldl
          (fun best row => if |g best| < |g row| then row else best) s)|) := by
  intro n hn
  induction n, hn using Nat.le_induction with
  | base =>
      have h1 : List.range' s 1 = [s] := List.range'_one
      rw [h1]
      simp only [List.foldl_cons, List.foldl_nil]
      rw [if_neg (lt_irrefl _)]
      refine ⟨le_refl _, by omega, ?_, ?_⟩
      · intro r h1 h2
        have : r = s := by omega
        rw [this]
      · intro r h1 h2
        omega
  | succ n hn ih =>
      obtain ⟨hb1, hb2, hmax, hstrict⟩ := ih
      have hconcat : List.range' s (n + 1) = List.range' s n ++ [s + n] := by
        have := @List.range'_concat 1 s n
        simpa using this
      rw [hconcat, List.foldl_append]
      simp only [List.foldl_cons, List.foldl_nil]
      set b := (List.range' s n).foldl
        (fun best row => if |g best| < |g row| then row else best) s with hbdef
      by_cases hlt : |g b| < |g (s + n)|
      · rw [if_pos hlt]
        refine ⟨by omega, by omega, ?_, ?_⟩
        · intro r hr1 hr2
          rcases Nat.lt_or_ge r (s + n) with hr | hr
          · exact le_of_lt (lt_of_le_of_lt (hmax r hr1 hr) hlt)
          · have : r = s + n := by omega
            rw [this]
        · intro r hr1 hr2
          exact lt_of_le_of_lt (hmax r hr1 hr2) hlt
      · rw [if_neg hlt]
        refine ⟨hb1, by omega, ?_, hstrict⟩
        intro r hr1 hr2
        rcases Nat.lt_or_ge r (s + n) with hr | hr
        · exact hmax r hr1 hr
        · have : r = s + n := by omega
          rw [this]
          exact le_of_not_lt hlt

/-- The spec of `max_in_col_greater_eq` on a nonempty row range. -/
theorem maxInColGE_spec (M : Mx) (col minRow : Nat) (h : minRow < M.rows) :
    minRow ≤ (maxInColGE M col minRow).1 ∧
    (maxInColGE M col minRow).1 < M.rows ∧
    (∀ r, minRow ≤ r → r < M.rows →
      |getE M r col| ≤ |getE M (maxInColGE M col minRow).1 col|) ∧
    (∀ r, minRow ≤ r → r < (maxInColGE M col minRow).1 →
      |getE M r col| < |getE M (maxInColGE M col minRow).1 col|) ∧
    (maxInColGE M col minRow).2 = getE M (maxInColGE M col minRow).1 col := by
  have hn : 1 ≤ M.rows - minRow := by omega
  have hs : minRow + (M.rows - minRow) = M.rows := by omega
  have := maxfold_spec (fun r => getE M r col) minRow (M.rows - minRow) hn
  rw [hs] at this
  exact ⟨this.1, this.2.1, this.2.2.1, this.2.2.2, rfl⟩

/-- C5: for every well-formed matrix `M`, column `col < cols` and start row
`start_row < rows`, `max_in_col_greater_eq(col, start_row)` returns the pair
`(r*, v)` where `r*` is the smallest row index in `[start_row, rows)` whose
absolute value in column `col` is not less than that of any row in the range
(ties resolve to the first row encountered), and `v` is the signed element
`M[r*][col]`. -/
theorem C5_max_in_col_first_argmax (M : Mx) (col minRow : Nat) (hwf : Wf M)
    (hcol : col < M.cols) (hrow : minRow < M.rows) :
    IsLeast {r | minRow ≤ r ∧ r < M.rows ∧
        ∀ s, minRow ≤ s → s < M.rows → |getE M s col| ≤ |getE M r col|}
      (maxInColGE M col minRow).1 ∧
    (maxInColGE M col minRow).2 = getE M (maxInColGE M col minRow).1 col := by
  obtain ⟨h1, h2, h3, h4, h5⟩ := maxInColGE_spec M col minRow hrow
  refine ⟨⟨⟨h1, h2, h3⟩, ?_⟩, h5⟩
  intro y hy
  by_contra hlt
  push_neg at hlt
  have hstrict := h4 y hy.1 hlt
  have hmax := hy.2.2 (maxInColGE M col minRow).1 h1 h2
  exact absurd (lt_of_le_of_lt hmax hstrict) (lt_irrefl _)

/-- Witness for C5: the concrete 3×2 matrix `[[1,5],[-7,2],[7,0]]`, column 0,
start row 0 — the search lands on row 1 (value `-7`), not row 2 (`7`). -/
theorem C5_witness :
    IsLeast {r | 0 ≤ r ∧ r < (mkMatrix 3 2 [1,5,-7,2,7,0]).rows ∧
        ∀ s, 0 ≤ s → s < (mkMatrix 3 2 [1,5,-7,2,7,0]).rows →
          |getE (mkMatrix 3 2 [1,5,-7,2,7,0]) s 0| ≤
            |getE (mkMatrix 3 2 [1,5,-7,2,7,0]) r 0|}
      (maxInColGE (mkMatrix 3 2 [1,5,-7,2,7,0]) 0 0).1 ∧
    (maxInColGE (mkMatrix 3 2 [1,5,-7,2,7,0]) 0 0).2 =
      getE (mkMatrix 3 2 [1,5,-7,2,7,0])
        (maxInColGE (mkMatrix 3 2 [1,5,-7,2,7,0]) 0 0).1 0 :=
  C5_max_in_col_first_argmax _ 0 0 (by decide) (by decide) (by decide)

/-- C7: `equal(M, N)` is true iff the shapes match and every logically indexed
pair of elements compares equal; the row-indirection (physical order) never
affects the result, since only logically indexed reads occur in the
statement. -/
theorem C7_equal_iff_logical_pointwise (a b : Mx) (ha : Wf a) (hb : Wf b) :
    equal a b = true ↔
      (a.rows = b.rows ∧ a.cols = b.cols ∧
        ∀ i < a.rows, ∀ j < a.cols, getE a i j = getE b i j) :=
  equal_iff a b ha

/-- Witness for C7: a matrix with permuted physical rows (after `swap_rows`)
compares equal to its canonically stored counterpart. -/
theorem C7_witness :
    equal (swapRows (mkMatrix 2 2 [3,4,1,2]) 0 1) (mkMatrix 2 2 [1,2,3,4]) = true ↔
      ((swapRows (mkMatrix 2 2 [3,4,1,2]) 0 1).rows = (mkMatrix 2 2 [1,2,3,4]).rows ∧
        (swapRows (mkMatrix 2 2 [3,4,1,2]) 0 1).cols = (mkMatrix 2 2 [1,2,3,4]).cols ∧
        ∀ i < (swapRows (mkMatrix 2 2 [3,4,1,2]) 0 1).rows,
          ∀ j < (swapRows (mkMatrix 2 2 [3,4,1,2]) 0 1).cols,
            getE (swapRows (mkMatrix 2 2 [3,4,1,2]) 0 1) i j =
              getE (mkMatrix 2 2 [1,2,3,4]) i j) :=
  C7_equal_iff_logical_pointwise _ _ (by decide) (by decide)

/-- C10: when the shapes differ, `equal` returns `false` and the loop body's
short-circuiting `&&` skips every row comparison, so not a single element is
accessed (the access count of the instrumented model is zero). -/
theorem C10_shape_mismatch_no_access (a b : Mx)
    (h : a.rows ≠ b.rows ∨ a.cols ≠ b.cols) :
    equal a b = false ∧ equalT a b = (false, 0) := by
  have hinit : (a.rows == b.rows && a.cols == b.cols) = false := by
    rcases h with h | h <;> simp [h]
  constructor
  · rw [equal_eq_and, hinit, Bool.false_and]
  · unfold equalT
    rw [hinit]
    exact equalT_loop_false a b _ 0

/-- Witness for C10: a 1×2 against a 2×2 matrix. -/
theorem C10_witness :
    equal (mkMatrix 1 2 [1,2]) (mkMatrix 2 2 [1,2,3,4]) = false ∧
    equalT (mkMatrix 1 2 [1,2]) (mkMatrix 2 2 [1,2,3,4]) = (false, 0) :=
  C10_shape_mismatch_no_access _ _ (Or.inl (by decide))

/-! ### Transpose -/

/-- Shape of the matrix built by `transpose()`'s loop. -/
theorem transposeCore_shape (M : Mx) :
    (transposeCore M).rows = M.cols ∧ (transposeCore M).cols = M.rows := by
  unfold transposeCore
  refine foldl_pres (fun A : Mx => A.rows = M.cols ∧ A.cols = M.rows) _ _ _ ⟨rfl, rfl⟩ ?_
  intro A x hA
  refine foldl_pres (fun A : Mx => A.rows = M.cols ∧ A.cols = M.rows) _ _ _ hA ?_
  intro B y hB
  simpa using hB

/-- The matrix built by `transpose()`'s loop is well-formed. -/
theorem transposeCore_wf (M : Mx) (h : M.cols = 0 ↔ M.rows = 0) :
    Wf (transposeCore M) := by
  unfold transposeCore
  refine foldl_pres Wf _ _ _ (wf_mkMatrix _ _ _ h) ?_
  intro A x hA
  refine foldl_pres Wf _ _ _ hA ?_
  intro B y hB
  exact wf_setE _ hB _ _ _

/-- Inner loop of `transpose()` (fixed source row `i`): it writes column `i`
of the target with the entries of row `i` of `M`, leaving all other cells. -/
theorem transposeCore_inner (M A : Mx) (i : Nat) (hi : i < M.rows)
    (hr : A.rows = M.cols) (hc : A.cols = M.rows) (hwfA : Wf A) :
    ∀ m, m ≤ M.cols →
      ((List.range m).foldl (fun B j => setE B j i (getE M i j)) A).rows = M.cols ∧
      ((List.range m).foldl (fun B j => setE B j i (getE M i j)) A).cols = M.rows ∧
      Wf ((List.range m).foldl (fun B j => setE B j i (getE M i j)) A) ∧
      ∀ r, r < M.cols → ∀ c, c < M.rows →
        getE ((List.range m).foldl (fun B j => setE B j i (getE M i j)) A) r c =
          if c = i ∧ r < m then getE M i r else getE A r c := by
  intro m
  induction m with
  | zero =>
      intro _
      refine ⟨hr, hc, hwfA, ?_⟩
      intro r hrr c hcc
      simp
  | succ m ih =>
      intro hm
      obtain ⟨ihr, ihc, ihwf, ihget⟩ := ih (by omega)
      rw [List.range_succ, List.foldl_append, List.foldl_cons, List.foldl_nil]
      set B := (List.range m).foldl (fun B j => setE B j i (getE M i j)) A with hB
      refine ⟨by simpa using ihr, by simpa using ihc, wf_setE _ ihwf _ _ _, ?_⟩
      intro r hrr c hcc
      rw [getE_setE B ihwf _ (by omega) (by omega) (by omega) (by omega)]
      by_cases hnew : c = i ∧ r < m + 1
      · rw [if_pos hnew]
        obtain ⟨hci, hrm⟩ := hnew
        by_cases hrm' : r = m
        · rw [if_pos ⟨hrm', hci.symm ▸ rfl⟩]
          rw [hrm']
        · rw [if_neg (by tauto), ihget r hrr c hcc, if_pos ⟨hci, by omega⟩]
      · rw [if_neg hnew]
        have h1 : ¬ (r = m ∧ c = i) := by
          intro hcon
          exact hnew ⟨hcon.2, by omega⟩
        rw [if_neg h1, ihget r hrr c hcc, if_neg (by tauto)]

/-- Outer loop of `transpose()`: after processing source rows `0 … n-1`,
target cell `(r, c)` holds `M[c][r]` for `c < n` and is untouched otherwise. -/
theorem transposeCore_outer (M : Mx) (hb : Wf (mkMatrix M.cols M.rows [])) :
    ∀ n, n ≤ M.rows →
      ((List.range n).foldl
        (fun A i => (List.range M.cols).foldl (fun B j => setE B j i (getE M i j)) A)
        (mkMatrix M.cols M.rows [])).rows = M.cols ∧
      ((List.range n).foldl
        (fun A i => (List.range M.cols).foldl (fun B j => setE B j i (getE M i j)) A)
        (mkMatrix M.cols M.rows [])).cols = M.rows ∧
      Wf ((List.range n).foldl
        (fun A i => (List.range M.cols).foldl (fun B j => setE B j i (getE M i j)) A)
        (mkMatrix M.cols M.rows [])) ∧
      ∀ r, r < M.cols → ∀ c, c < M.rows →
        getE ((List.range n).foldl
          (fun A i => (List.range M.cols).foldl (fun B j => setE B j i (getE M i j)) A)
          (mkMatrix M.cols M.rows [])) r c =
          if c < n then getE M c r else getE (mkMatrix M.cols M.rows []) r c := by
  intro n
  induction n with
  | zero =>
      intro _
      refine ⟨rfl, rfl, hb, ?_⟩
      intro r hrr c hcc
      simp
  | succ n ih =>
      intro hn
      obtain ⟨ihr, ihc, ihwf, ihget⟩ := ih (by omega)
      rw [List.range_succ, List.foldl_append, List.foldl_cons, List.foldl_nil]
      set A := (List.range n).foldl
        (fun A i => (List.range M.cols).foldl (fun B j => setE B j i (getE M i j)) A)
        (mkMatrix M.cols M.rows []) with hA
      obtain ⟨jr, jc, jwf, jget⟩ :=
        transposeCore_inner M A n (by omega) ihr ihc ihwf M.cols (le_refl _)
      refine ⟨jr, jc, jwf, ?_⟩
      intro r hrr c hcc
      rw [jget r hrr c hcc]
      by_cases hc : c < n + 1
      · rw [if_pos hc]
        by_cases hcn : c = n
        · rw [if_pos ⟨hcn, hrr⟩, hcn]
        · rw [if_neg (by tauto), ihget r hrr c hcc, if_pos (by omega)]
      · rw [if_neg hc, if_neg (by omega : ¬ (c = n ∧ r < M.cols)),
          ihget r hrr c hcc, if_neg (by omega)]

/-- Entry correctness of `transpose()`: cell `(j, i)` of the result holds the
original `(i, j)` entry. -/
theorem transposeCore_get (M : Mx) {i j : Nat} (hi : i < M.rows) (hj : j < M.cols) :
    getE (transposeCore M) j i = getE M i j := by
  have hb : Wf (mkMatrix M.cols M.rows []) := by
    apply wf_mkMatrix
    omega
  obtain ⟨_, _, _, hget⟩ := transposeCore_outer M hb M.rows (le_refl _)
  rw [show transposeCore M = (List.range M.rows).foldl
      (fun A i => (List.range M.cols).foldl (fun B j => setE B j i (getE M i j)) A)
      (mkMatrix M.cols M.rows []) from rfl,
    hget j hj i hi, if_pos hi]

/-- C9: each `transpose` produces a `cols × rows` matrix whose `(j,i)` entry
is the original `(i,j)` entry, and transposing twice yields a matrix that
`equal` (logical comparison) identifies with the original. -/
theorem C9_transpose_involution (M : Mx) (hwf : Wf M) :
    (transposeF M).rows = M.cols ∧ (transposeF M).cols = M.rows ∧
    (∀ i < M.rows, ∀ j < M.cols, getE (transposeF M) j i = getE M i j) ∧
    equal (transposeF (transposeF M)) M = true := by
  have hsh : (transposeF M).rows = M.cols ∧ (transposeF M).cols = M.rows :=
    transposeCore_shape M
  refine ⟨hsh.1, hsh.2, ?_, ?_⟩
  · intro i hi j hj
    exact transposeCore_get M hi hj
  · have hz : M.rows = 0 ↔ M.cols = 0 := hwf.2.2.1
    have hsh1 : (transposeF (transposeF M)).rows = (transposeF M).cols ∧
        (transposeF (transposeF M)).cols = (transposeF M).rows :=
      transposeCore_shape (transposeF M)
    have hwf2 : Wf (transposeF (transposeF M)) := by
      apply transposeCore_wf
      rw [hsh.1, hsh.2]
      exact hz
    rw [equal_iff _ _ hwf2]
    have e1 : (transposeF (transposeF M)).rows = M.rows := by rw [hsh1.1, hsh.2]
    have e2 : (transposeF (transposeF M)).cols = M.cols := by rw [hsh1.2, hsh.1]
    refine ⟨e1, e2, ?_⟩
    intro i hi j hj
    rw [e1] at hi
    rw [e2] at hj
    have hi' : j < (transposeF M).rows := by rw [hsh.1]; exact hj
    have hj' : i < (transposeF M).cols := by rw [hsh.2]; exact hi
    calc getE (transposeF (transposeF M)) i j
        = getE (transposeF M) j i := transposeCore_get (transposeF M) hi' hj'
      _ = getE M i j := transposeCore_get M hi hj

/-- Witness for C9 at the concrete 2×3 matrix `[[1,2,3],[4,5,6]]`. -/
theorem C9_witness :
    (transposeF (mkMatrix 2 3 [1,2,3,4,5,6])).rows = (mkMatrix 2 3 [1,2,3,4,5,6]).cols ∧
    (transposeF (mkMatrix 2 3 [1,2,3,4,5,6])).cols = (mkMatrix 2 3 [1,2,3,4,5,6]).rows ∧
    (∀ i < (mkMatrix 2 3 [1,2,3,4,5,6]).rows, ∀ j < (mkMatrix 2 3 [1,2,3,4,5,6]).cols,
      getE (transposeF (mkMatrix 2 3 [1,2,3,4,5,6])) j i =
        getE (mkMatrix 2 3 [1,2,3,4,5,6]) i j) ∧
    equal (transposeF (transposeF (mkMatrix 2 3 [1,2,3,4,5,6])))
      (mkMatrix 2 3 [1,2,3,4,5,6]) = true :=
  C9_transpose_involution _ (by decide)

/-! ### Element-wise compound assignment -/

/-- One row of the `std::transform` loop of `operator+=`/`operator-=` (with
`op` the element operation): row `i`'s first `m` cells become
`op (old value) (N value)`, everything else is untouched. -/
theorem ewRow_spec (N : Mx) (op : ℚ → ℚ → ℚ) (A : Mx) (i : Nat)
    (hwfA : Wf A) (hi : i < A.rows) :
    ∀ m, m ≤ A.cols →
      ((List.range m).foldl (fun B j => setE B i j (op (getE B i j) (getE N i j))) A).rows
        = A.rows ∧
      ((List.range m).foldl (fun B j => setE B i j (op (getE B i j) (getE N i j))) A).cols
        = A.cols ∧
      Wf ((List.range m).foldl (fun B j => setE B i j (op (getE B i j) (getE N i j))) A) ∧
      ∀ r, r < A.rows → ∀ c, c < A.cols →
        getE ((List.range m).foldl
            (fun B j => setE B i j (op (getE B i j) (getE N i j))) A) r c =
          if r = i ∧ c < m then op (getE A r c) (getE N r c) else getE A r c := by
  intro m
  induction m with
  | zero =>
      intro _
      refine ⟨rfl, rfl, hwfA, ?_⟩
      intro r hrr c hcc
      simp
  | succ m ih =>
      intro hm
      obtain ⟨ihr, ihc, ihwf, ihget⟩ := ih (by omega)
      rw [List.range_succ, List.foldl_append, List.foldl_cons, List.foldl_nil]
      set B := (List.range m).foldl
        (fun B j => setE B i j (op (getE B i j) (getE N i j))) A with hB
      have hBv : getE B i m = getE A i m := by
        rw [ihget i hi m (by omega)]
        simp
      refine ⟨by simpa using ihr, by simpa using ihc, wf_setE _ ihwf _ _ _, ?_⟩
      intro r hrr c hcc
      rw [getE_setE B ihwf _ (by omega) (by omega) (by omega) (by omega), hBv]
      by_cases hnew : r = i ∧ c < m + 1
      · rw [if_pos hnew]
        obtain ⟨hri, hcm⟩ := hnew
        by_cases hcm' : c = m
        · rw [if_pos ⟨hri, hcm'⟩, hri, hcm']
        · rw [if_neg (by tauto), ihget r hrr c hcc, if_pos ⟨hri, by omega⟩]
      · rw [if_neg hnew]
        have h1 : ¬ (r = i ∧ c = m) := by
          intro hcon
          exact hnew ⟨hcon.1, by omega⟩
        rw [if_neg h1, ihget r hrr c hcc, if_neg (by tauto)]

/-- The full double loop of `operator+=`/`operator-=`: every cell of the
first `n` rows becomes `op (old value) (N value)`. -/
theorem ewFold_spec (M N : Mx) (op : ℚ → ℚ → ℚ) (hwf : Wf M) :
    ∀ n, n ≤ M.rows →
      ((List.range n).foldl
        (fun A i => (List.range M.cols).foldl
          (fun B j => setE B i j (op (getE B i j) (getE N i j))) A) M).rows = M.rows ∧
      ((List.range n).foldl
        (fun A i => (List.range M.cols).foldl
          (fun B j => setE B i j (op (getE B i j) (getE N i j))) A) M).cols = M.cols ∧
      Wf ((List.range n).foldl
        (fun A i => (List.range M.cols).foldl
          (fun B j => setE B i j (op (getE B i j) (getE N i j))) A) M) ∧
      ∀ r, r < M.rows → ∀ c, c < M.cols →
        getE ((List.range n).foldl
          (fun A i => (List.range M.cols).foldl
            (fun B j => setE B i j (op (getE B i j) (getE N i j))) A) M) r c =
          if r < n then op (getE M r c) (getE N r c) else getE M r c := by
  intro n
  induction n with
  | zero =>
      intro _
      refine ⟨rfl, rfl, hwf, ?_⟩
      intro r hrr c hcc
      simp
  | succ n ih =>
      intro hn
      obtain ⟨ihr, ihc, ihwf, ihget⟩ := ih (by omega)
      rw [List.range_succ, List.foldl_append, List.foldl_cons, List.foldl_nil]
      set A := (List.range n).foldl
        (fun A i => (List.range M.cols).foldl
          (fun B j => setE B i j (op (getE B i j) (getE N i j))) A) M with hA
      have hcols : M.cols = A.cols := ihc.symm
      obtain ⟨jr, jc, jwf, jget⟩ := ewRow_spec N op A n ihwf (by omega) M.cols (by omega)
      refine ⟨by rw [jr, ihr], by rw [jc, ihc], jwf, ?_⟩
      intro r hrr c hcc
      rw [jget r (by omega) c (by omega)]
      by_cases hr : r < n + 1
      · rw [if_pos hr]
        by_cases hrn : r = n
        · rw [if_pos ⟨hrn, by omega⟩, ihget r hrr c hcc, if_neg (by omega), hrn]
        · rw [if_neg (by tauto), ihget r hrr c hcc, if_pos (by omega)]
      · rw [if_neg hr, if_neg (by omega : ¬ (r = n ∧ c < M.cols)),
          ihget r hrr c hcc, if_neg (by omega)]

/-- C8: `operator+=` and `operator-=` fail with `ShapeMismatch` exactly when
the shapes differ, leaving the target in its original state (the guard throws
before any write); on matching shapes they succeed and update the target to
the element-wise sum (resp. difference) at every logical index. -/
theorem C8_add_sub_guard_and_update (M N : Mx) (hwf : Wf M) :
    ((M.rows ≠ N.rows ∨ M.cols ≠ N.cols) →
      addAssign M N = (M, some Err.shapeMismatch) ∧
      subAssign M N = (M, some Err.shapeMismatch)) ∧
    (M.rows = N.rows → M.cols = N.cols →
      (addAssign M N).2 = none ∧ (subAssign M N).2 = none ∧
      (addAssign M N).1.rows = M.rows ∧ (addAssign M N).1.cols = M.cols ∧
      (subAssign M N).1.rows = M.rows ∧ (subAssign M N).1.cols = M.cols ∧
      ∀ i < M.rows, ∀ j < M.cols,
        getE (addAssign M N).1 i j = getE M i j + getE N i j ∧
        getE (subAssign M N).1 i j = getE M i j - getE N i j) := by
  constructor
  · intro h
    constructor
    · unfold addAssign
      rw [if_pos h]
    · unfold subAssign
      rw [if_pos h]
  · intro h1 h2
    have hcond : ¬ (M.rows ≠ N.rows ∨ M.cols ≠ N.cols) := by tauto
    have hadd : addAssign M N =
        ((List.range M.rows).foldl
          (fun A i => (List.range M.cols).foldl
            (fun B j => setE B i j (getE B i j + getE N i j)) A) M, none) := by
      unfold addAssign
      rw [if_neg hcond]
    have hsub : subAssign M N =
        ((List.range M.rows).foldl
          (fun A i => (List.range M.cols).foldl
            (fun B j => setE B i j (getE B i j - getE N i j)) A) M, none) := by
      unfold subAssign
      rw [if_neg hcond]
    have A := ewFold_spec M N (· + ·) hwf M.rows (le_refl _)
    have S := ewFold_spec M N (· - ·) hwf M.rows (le_refl _)
    refine ⟨by rw [hadd], by rw [hsub], by rw [hadd]; exact A.1, by rw [hadd]; exact A.2.1,
      by rw [hsub]; exact S.1, by rw [hsub]; exact S.2.1, ?_⟩
    intro i hi j hj
    constructor
    · rw [hadd]
      have := A.2.2.2 i hi j hj
      rw [if_pos hi] at this
      exact this
    · rw [hsub]
      have := S.2.2.2 i hi j hj
      rw [if_pos hi] at this
      exact this

/-- Witness for C8 at concrete 2×2 matrices. -/
theorem C8_witness :
    (((mkMatrix 2 2 [1,2,3,4]).rows ≠ (mkMatrix 2 2 [10,20,30,40]).rows ∨
        (mkMatrix 2 2 [1,2,3,4]).cols ≠ (mkMatrix 2 2 [10,20,30,40]).cols) →
      addAssign (mkMatrix 2 2 [1,2,3,4]) (mkMatrix 2 2 [10,20,30,40]) =
        (mkMatrix 2 2 [1,2,3,4], some Err.shapeMismatch) ∧
      subAssign (mkMatrix 2 2 [1,2,3,4]) (mkMatrix 2 2 [10,20,30,40]) =
        (mkMatrix 2 2 [1,2,3,4], some Err.shapeMismatch)) ∧
    ((mkMatrix 2 2 [1,2,3,4]).rows = (mkMatrix 2 2 [10,20,30,40]).rows →
      (mkMatrix 2 2 [1,2,3,4]).cols = (mkMatrix 2 2 [10,20,30,40]).cols →
      (addAssign (mkMatrix 2 2 [1,2,3,4]) (mkMatrix 2 2 [10,20,30,40])).2 = none ∧
      (subAssign (mkMatrix 2 2 [1,2,3,4]) (mkMatrix 2 2 [10,20,30,40])).2 = none ∧
      (addAssign (mkMatrix 2 2 [1,2,3,4]) (mkMatrix 2 2 [10,20,30,40])).1.rows =
        (mkMatrix 2 2 [1,2,3,4]).rows ∧
      (addAssign (mkMatrix 2 2 [1,2,3,4]) (mkMatrix 2 2 [10,20,30,40])).1.cols =
        (mkMatrix 2 2 [1,2,3,4]).cols ∧
      (subAssign (mkMatrix 2 2 [1,2,3,4]) (mkMatrix 2 2 [10,20,30,40])).1.rows =
        (mkMatrix 2 2 [1,2,3,4]).rows ∧
      (subAssign (mkMatrix 2 2 [1,2,3,4]) (mkMatrix 2 2 [10,20,30,40])).1.cols =
        (mkMatrix 2 2 [1,2,3,4]).cols ∧
      ∀ i < (mkMatrix 2 2 [1,2,3,4]).rows, ∀ j < (mkMatrix 2 2 [1,2,3,4]).cols,
        getE (addAssign (mkMatrix 2 2 [1,2,3,4]) (mkMatrix 2 2 [10,20,30,40])).1 i j =
          getE (mkMatrix 2 2 [1,2,3,4]) i j + getE (mkMatrix 2 2 [10,20,30,40]) i j ∧
        getE (subAssign (mkMatrix 2 2 [1,2,3,4]) (mkMatrix 2 2 [10,20,30,40])).1 i j =
          getE (mkMatrix 2 2 [1,2,3,4]) i j - getE (mkMatrix 2 2 [10,20,30,40]) i j) :=
  C8_add_sub_guard_and_update _ _ (by decide)

/-! ### Matrix product -/

/-- Filling one row of the result of `operator*=` (values independent of the
accumulator): row `i`'s first `m` cells become `f`, the rest is untouched. -/
theorem fillRow_spec (A : Mx) (i : Nat) (f : Nat → ℚ) (hwfA : Wf A) (hi : i < A.rows) :
    ∀ m, m ≤ A.cols →
      ((List.range m).foldl (fun B j => setE B i j (f j)) A).rows = A.rows ∧
      ((List.range m).foldl (fun B j => setE B i j (f j)) A).cols = A.cols ∧
      Wf ((List.range m).foldl (fun B j => setE B i j (f j)) A) ∧
      ∀ r, r < A.rows → ∀ c, c < A.cols →
        getE ((List.range m).foldl (fun B j => setE B i j (f j)) A) r c =
          if r = i ∧ c < m then f c else getE A r c := by
  intro m
  induction m with
  | zero =>
      intro _
      refine ⟨rfl, rfl, hwfA, ?_⟩
      intro r hrr c hcc
      simp
  | succ m ih =>
      intro hm
      obtain ⟨ihr, ihc, ihwf, ihget⟩ := ih (by omega)
      rw [List.range_succ, List.foldl_append, List.foldl_cons, List.foldl_nil]
      set B := (List.range m).foldl (fun B j => setE B i j (f j)) A with hB
      refine ⟨by simpa using ihr, by simpa using ihc, wf_setE _ ihwf _ _ _, ?_⟩
      intro r hrr c hcc
      rw [getE_setE B ihwf _ (by omega) (by omega) (by omega) (by omega)]
      by_cases hnew : r = i ∧ c < m + 1
      · rw [if_pos hnew]
        obtain ⟨hri, hcm⟩ := hnew
        by_cases hcm' : c = m
        · rw [if_pos ⟨hri, hcm'⟩, hcm']
        · rw [if_neg (by tauto), ihget r hrr c hcc, if_pos ⟨hri, by omega⟩]
      · rw [if_neg hnew]
        have h1 : ¬ (r = i ∧ c = m) := by
          intro hcon
          exact hnew ⟨hcon.1, by omega⟩
        rw [if_neg h1, ihget r hrr c hcc, if_neg (by tauto)]

/-- The double loop of `operator*=` writing all result cells. -/
theorem fillGrid_spec (A0 : Mx) (f2 : Nat → Nat → ℚ) (hwf0 : Wf A0)
    (mc : Nat) (hmc : mc ≤ A0.cols) :
    ∀ n, n ≤ A0.rows →
      ((List.range n).foldl
        (fun A i => (List.range mc).foldl (fun B j => setE B i j (f2 i j)) A) A0).rows
          = A0.rows ∧
      ((List.range n).foldl
        (fun A i => (List.range mc).foldl (fun B j => setE B i j (f2 i j)) A) A0).cols
          = A0.cols ∧
      Wf ((List.range n).foldl
        (fun A i => (List.range mc).foldl (fun B j => setE B i j (f2 i j)) A) A0) ∧
      ∀ r, r < A0.rows → ∀ c, c < A0.cols →
        getE ((List.range n).foldl
            (fun A i => (List.range mc).foldl (fun B j => setE B i j (f2 i j)) A) A0) r c =
          if r < n ∧ c < mc then f2 r c else getE A0 r c := by
  intro n
  induction n with
  | zero =>
      intro _
      refine ⟨rfl, rfl, hwf0, ?_⟩
      intro r hrr c hcc
      simp
  | succ n ih =>
      intro hn
      obtain ⟨ihr, ihc, ihwf, ihget⟩ := ih (by omega)
      rw [List.range_succ, List.foldl_append, List.foldl_cons, List.foldl_nil]
      set A := (List.range n).foldl
        (fun A i => (List.range mc).foldl (fun B j => setE B i j (f2 i j)) A) A0 with hA
      obtain ⟨jr, jc, jwf, jget⟩ :=
        fillRow_spec A n (f2 n) ihwf (by omega) mc (by omega)
      refine ⟨by rw [jr, ihr], by rw [jc, ihc], jwf, ?_⟩
      intro r hrr c hcc
      rw [jget r (by omega) c (by omega)]
      by_cases hr : r < n + 1 ∧ c < mc
      · rw [if_pos hr]
        by_cases hrn : r = n
        · rw [if_pos ⟨hrn, hr.2⟩, hrn]
        · rw [if_neg (by tauto), ihget r hrr c hcc, if_pos ⟨by omega, hr.2⟩]
      · rw [if_neg hr]
        have h1 : ¬ (r = n ∧ c < mc) := by
          intro hcon
          exact hr ⟨by omega, hcon.2⟩
        rw [if_neg h1, ihget r hrr c hcc, if_neg (by omega)]

/-- `multiply_accumulate` on two mapped ranges is the indexed fold. -/
theorem mac_maps (f g : Nat → ℚ) (n : Nat) (c : ℚ) :
    multiply_accumulate ((List.range n).map f) ((List.range n).map g) c =
      (List.range n).foldl (fun acc k => acc + f k * g k) c := by
  unfold multiply_accumulate
  rw [List.zip_map', List.foldl_map]

/-- C6: `operator*=` fails with `ShapeMismatch` iff `M.cols ≠ N.rows`;
otherwise it produces an `M.rows × N.cols` matrix whose `(i,j)` entry is the
dot product `Σₖ M[i][k]·N[k][j]` over `k < M.cols`, accumulated in index
order from initial value `0`. -/
theorem C6_matmul (M N : Mx) (hwfM : Wf M) (hwfN : Wf N) :
    (M.cols ≠ N.rows → mulAssign M N = (M, some Err.shapeMismatch)) ∧
    (M.cols = N.rows →
      (mulAssign M N).2 = none ∧
      (mulAssign M N).1.rows = M.rows ∧ (mulAssign M N).1.cols = N.cols ∧
      ∀ i < M.rows, ∀ j < N.cols,
        getE (mulAssign M N).1 i j =
          (List.range M.cols).foldl (fun acc k => acc + getE M i k * getE N k j) 0) := by
  constructor
  · intro h
    unfold mulAssign
    rw [if_pos h]
  · intro h
    have hcond : ¬ M.cols ≠ N.rows := by tauto
    have hsh : (transposeF N).rows = N.cols ∧ (transposeF N).cols = N.rows :=
      transposeCore_shape N
    have hmul : mulAssign M N =
        ((List.range M.rows).foldl
          (fun A i => (List.range (transposeF N).rows).foldl
            (fun B j => setE B i j
              (multiply_accumulate (rowList M i) (rowList (transposeF N) j) 0)) A)
          (mkMatrix M.rows N.cols []),
         none) := by
      unfold mulAssign
      rw [if_neg hcond]
    have hwf0 : Wf (mkMatrix M.rows N.cols []) := by
      apply wf_mkMatrix
      have hM := hwfM.2.2.1
      have hN := hwfN.2.2.1
      constructor
      · intro h0
        exact hN.mp (by omega)
      · intro h0
        have : N.rows = 0 := hN.mpr h0
        have : M.cols = 0 := by omega
        have : M.rows = 0 := hM.mpr this
        exact this
    have hmc : (transposeF N).rows ≤ (mkMatrix M.rows N.cols []).cols := by
      rw [hsh.1, mkMatrix_cols]
    obtain ⟨gr, gc, gwf, gget⟩ :=
      fillGrid_spec (mkMatrix M.rows N.cols [])
        (fun i j => multiply_accumulate (rowList M i) (rowList (transposeF N) j) 0)
        hwf0 (transposeF N).rows hmc M.rows (by rw [mkMatrix_rows])
    refine ⟨by rw [hmul], by rw [hmul]; exact gr, by rw [hmul]; exact gc, ?_⟩
    intro i hi j hj
    rw [hmul]
    have hval := gget i (by simpa using hi) j (by simpa using hj)
    rw [if_pos ⟨by simpa using hi, by rw [hsh.1]; exact hj⟩] at hval
    have hmac : multiply_accumulate (rowList M i) (rowList (transposeF N) j) 0 =
        (List.range M.cols).foldl (fun acc k => acc + getE M i k * getE N k j) 0 := by
      have hrl : rowList (transposeF N) j =
          (List.range M.cols).map fun k => getE (transposeF N) j k := by
        unfold rowList
        rw [hsh.2, h]
      rw [show rowList M i = (List.range M.cols).map (fun k => getE M i k) from rfl, hrl,
        mac_maps]
      apply List.foldl_ext
      intro acc k hk
      rw [List.mem_range] at hk
      have htk : getE (transposeF N) j k = getE N k j :=
        transposeCore_get N (by omega) hj
      rw [htk]
    rw [hval, hmac]

/-- Witness for C6: a 2×3 by 3×1 product. -/
theorem C6_witness :
    ((mkMatrix 2 3 [1,2,3,4,5,6]).cols ≠ (mkMatrix 3 1 [1,1,1]).rows →
      mulAssign (mkMatrix 2 3 [1,2,3,4,5,6]) (mkMatrix 3 1 [1,1,1]) =
        (mkMatrix 2 3 [1,2,3,4,5,6], some Err.shapeMismatch)) ∧
    ((mkMatrix 2 3 [1,2,3,4,5,6]).cols = (mkMatrix 3 1 [1,1,1]).rows →
      (mulAssign (mkMatrix 2 3 [1,2,3,4,5,6]) (mkMatrix 3 1 [1,1,1])).2 = none ∧
      (mulAssign (mkMatrix 2 3 [1,2,3,4,5,6]) (mkMatrix 3 1 [1,1,1])).1.rows =
        (mkMatrix 2 3 [1,2,3,4,5,6]).rows ∧
      (mulAssign (mkMatrix 2 3 [1,2,3,4,5,6]) (mkMatrix 3 1 [1,1,1])).1.cols =
        (mkMatrix 3 1 [1,1,1]).cols ∧
      ∀ i < (mkMatrix 2 3 [1,2,3,4,5,6]).rows, ∀ j < (mkMatrix 3 1 [1,1,1]).cols,
        getE (mulAssign (mkMatrix 2 3 [1,2,3,4,5,6]) (mkMatrix 3 1 [1,1,1])).1 i j =
          (List.range (mkMatrix 2 3 [1,2,3,4,5,6]).cols).foldl
            (fun acc k => acc + getE (mkMatrix 2 3 [1,2,3,4,5,6]) i k *
              getE (mkMatrix 3 1 [1,1,1]) k j) 0) :=
  C6_matmul _ _ (by decide) (by decide)

/-- C2 (refuted by evaluation): `matrix` declares no copy constructor, so the
`matrix tmp = *this` inside `determinant()` copies the row-pointer vector
verbatim; the copied pointers still reference the receiver's buffer and the
elimination writes through them.  On `[[1,2],[3,4]]` the call returns `2` but
leaves the receiver's buffer as `[0, 2/3, 3, 0]` (the eliminated matrix):
its `(0,0)` entry changes from `1` to `0`, contradicting both the claim and
the `const` qualifier on `determinant()`. -/
theorem C2_determinant_mutates_receiver :
    determinant (mkMatrix 2 2 [1,2,3,4]) =
      Except.ok (2, { rows := 2, cols := 2, buf := [0, 2/3, 3, 0], rv := [0, 2] }) ∧
    detPost (mkMatrix 2 2 [1,2,3,4]) ≠ mkMatrix 2 2 [1,2,3,4] ∧
    getE (detPost (mkMatrix 2 2 [1,2,3,4])) 0 0 = 0 ∧
    getE (mkMatrix 2 2 [1,2,3,4]) 0 0 = 1 := by
  norm_num [detPost, determinant, square, gje, gjStep, elimRow, maxInColGE, swapRows,
    setE, getE, mkMatrix, freshRv, diagProd, List.range_succ, List.range', Mx.mk.injEq]

/-- C3 (refuted by evaluation): the determinant routine never tracks the
parity of its pivoting row swaps, so its result is invariant under swapping
the input's rows: both `[[1,2],[3,4]]` and `[[3,4],[1,2]]` yield `2`
(the mathematically correct values are `-2` and `2`), not values of opposite
sign. -/
theorem C3_swap_rows_does_not_flip_sign :
    detVal (mkMatrix 2 2 [1,2,3,4]) = Except.ok 2 ∧
    detVal (swapRows (mkMatrix 2 2 [1,2,3,4]) 0 1) = Except.ok 2 ∧
    detVal (swapRows (mkMatrix 2 2 [1,2,3,4]) 0 1) ≠
      Except.ok (-(2 : ℚ)) := by
  norm_num [detVal, determinant, square, gje, gjStep, elimRow, maxInColGE, swapRows,
    setE, getE, mkMatrix, freshRv, diagProd, List.range_succ, List.range', Except.map]

/-! ### Representation independence of the elimination

`gauss_jordan_elimination` accesses elements only through the row table, so
two representations with the same logical view (e.g. a matrix and the spec's
canonical copy of it) are eliminated to the same logical result. -/

/-- Two matrix states with equal shape and equal logical contents. -/
def ViewEq (A B : Mx) : Prop :=
  A.rows = B.rows ∧ A.cols = B.cols ∧
  ∀ i < A.rows, ∀ j < A.cols, getE A i j = getE B i j

/-- Both well-formed and logically equal. -/
def Sim (A B : Mx) : Prop := Wf A ∧ Wf B ∧ ViewEq A B

/-- Writing the same value at the same logical cell preserves logical
equality. -/
theorem viewEq_setE (A B : Mx) (hwfA : Wf A) (hwfB : Wf B) (hV : ViewEq A B)
    {a b : Nat} (ha : a < A.rows) (hb : b < A.cols) (v : ℚ) :
    ViewEq (setE A a b v) (setE B a b v) := by
  obtain ⟨h1, h2, h3⟩ := hV
  refine ⟨by simpa using h1, by simpa using h2, ?_⟩
  intro i hi j hj
  rw [setE_rows] at hi
  rw [setE_cols] at hj
  rw [getE_setE A hwfA v ha hb hi hj,
    getE_setE B hwfB v (h1 ▸ ha) (h2 ▸ hb) (h1 ▸ hi) (h2 ▸ hj)]
  split_ifs with hc
  · rfl
  · exact h3 i hi j hj

/-- Swapping the same two rows preserves logical equality. -/
theorem viewEq_swapRows (A B : Mx) (hwfA : Wf A) (hwfB : Wf B) (hV : ViewEq A B)
    {a b : Nat} (ha : a < A.rows) (hb : b < A.rows) :
    ViewEq (swapRows A a b) (swapRows B a b) := by
  obtain ⟨h1, h2, h3⟩ := hV
  refine ⟨by simpa using h1, by simpa using h2, ?_⟩
  intro i hi j hj
  rw [swapRows_rows] at hi
  rw [swapRows_cols] at hj
  have hlA : A.rv.length = A.rows := hwfA.1
  have hlB : B.rv.length = B.rows := hwfB.1
  rw [getE_swapRows A (by omega : a < A.rv.length) (by omega : b < A.rv.length),
    getE_swapRows B (by rw [hlB, ← h1]; omega) (by rw [hlB, ← h1]; omega)]
  split_ifs with hc1 hc2
  · exact h3 a ha j hj
  · exact h3 b hb j hj
  · exact h3 i hi j hj

/-- The pivot search depends only on the logical view. -/
theorem maxInColGE_congr (A B : Mx) (hV : ViewEq A B) {col m : Nat}
    (hcol : col < A.cols) (hm : m < A.rows) :
    maxInColGE A col m = maxInColGE B col m := by
  obtain ⟨h1, h2, h3⟩ := hV
  unfold maxInColGE
  rw [← h1]
  have key : ∀ x y : Nat, (x = y ∧ m ≤ x ∧ x < A.rows) →
      ((List.range' m (A.rows - m)).foldl
        (fun best row => if |getE A best col| < |getE A row col| then row else best) x =
       (List.range' m (A.rows - m)).foldl
        (fun best row => if |getE B best col| < |getE B row col| then row else best) y ∧
       m ≤ (List.range' m (A.rows - m)).foldl
        (fun best row => if |getE A best col| < |getE A row col| then row else best) x ∧
       (List.range' m (A.rows - m)).foldl
        (fun best row => if |getE A best col| < |getE A row col| then row else best) x
         < A.rows) := by
    intro x y hxy
    refine foldl_rel
      (fun x y => x = y ∧ m ≤ x ∧ x < A.rows) _ _ (List.range' m (A.rows - m)) x y hxy ?_
    intro row hrow x' y' hx'
    obtain ⟨hxe, hxl, hxu⟩ := hx'
    have hrowb : m ≤ row ∧ row < A.rows := by
      rw [List.mem_range'] at hrow
      omega
    have e1 : getE A x' col = getE B y' col := hxe ▸ h3 x' hxu col hcol
    have e2 : getE A row col = getE B row col := h3 row hrowb.2 col hcol
    rw [← e1, ← e2]
    split_ifs with hc
    · exact ⟨rfl, hrowb.1, hrowb.2⟩
    · exact ⟨hxe, hxl, hxu⟩
  obtain ⟨heq, hlb, hub⟩ := key m m ⟨rfl, le_refl _, hm⟩
  rw [heq]
  refine Prod.ext rfl ?_
  simp only
  rw [← heq]
  exact h3 _ hub col hcol

/-- `elimRow` preserves shape and row table. -/
theorem elimRow_shape (M : Mx) (i : Nat) (pe : ℚ) (r : Nat) :
    (elimRow M i pe r).rows = M.rows ∧ (elimRow M i pe r).cols = M.cols ∧
    (elimRow M i pe r).rv = M.rv := by
  unfold elimRow
  refine foldl_pres (fun A : Mx => A.rows = M.rows ∧ A.cols = M.cols ∧ A.rv = M.rv)
    _ _ _ ⟨rfl, rfl, rfl⟩ ?_
  intro A x hA
  simpa using hA

/-- `elimRow` preserves well-formedness. -/
theorem wf_elimRow (M : Mx) (hwf : Wf M) (i : Nat) (pe : ℚ) (r : Nat) :
    Wf (elimRow M i pe r) := by
  unfold elimRow
  refine foldl_pres Wf _ _ _ hwf ?_
  intro A x hA
  exact wf_setE _ hA _ _ _

/-- `elimRow` depends only on the logical view. -/
theorem sim_elimRow (A B : Mx) (hS : Sim A B) {i r : Nat} (pe : ℚ)
    (hi : i < A.rows) (hicol : i < A.cols) (hr : r < A.rows) :
    Sim (elimRow A i pe r) (elimRow B i pe r) := by
  obtain ⟨hwfA, hwfB, hV⟩ := hS
  have hco : getE A r i = getE B r i := hV.2.2 r hr i hicol
  unfold elimRow
  rw [← hV.2.1, ← hco]
  have key := foldl_rel
    (fun x y : Mx => Sim x y ∧ x.rows = A.rows ∧ x.cols = A.cols)
    (fun X c => setE X r c (getE X r c - getE A r i / pe * getE X i c))
    (fun Y c => setE Y r c (getE Y r c - getE A r i / pe * getE Y i c))
    (List.range A.cols) A B ⟨⟨hwfA, hwfB, hV⟩, rfl, rfl⟩ ?_
  · exact key.1
  · intro c hc x y hx
    obtain ⟨⟨hwx, hwy, hvx⟩, hxr, hxc⟩ := hx
    dsimp only
    rw [List.mem_range] at hc
    have hrc : r < x.rows := by omega
    have hcc : c < x.cols := by omega
    have hic : i < x.rows := by omega
    have e1 : getE x r c = getE y r c := hvx.2.2 r hrc c hcc
    have e2 : getE x i c = getE y i c := hvx.2.2 i hic c hcc
    rw [← e1, ← e2]
    exact ⟨⟨wf_setE _ hwx _ _ _, wf_setE _ hwy _ _ _,
      viewEq_setE x y hwx hwy hvx hrc hcc _⟩, by simpa using hxr, by simpa using hxc⟩

/-- `gjStep` preserves the shape. -/
theorem gjStep_shape (M : Mx) (i : Nat) :
    (gjStep M i).rows = M.rows ∧ (gjStep M i).cols = M.cols := by
  have key : ∀ (p : Nat × ℚ) (M1 : Mx), M1.rows = M.rows → M1.cols = M.cols →
      ((List.range M1.rows).foldl
        (fun A r => if i = r then A else elimRow A i p.2 r) M1).rows = M.rows ∧
      ((List.range M1.rows).foldl
        (fun A r => if i = r then A else elimRow A i p.2 r) M1).cols = M.cols := by
    intro p M1 h1 h2
    refine foldl_pres (fun A : Mx => A.rows = M.rows ∧ A.cols = M.cols)
      _ _ _ ⟨h1, h2⟩ ?_
    intro A r hA
    by_cases h : i = r
    · simpa [h] using hA
    · rw [if_neg h]
      obtain ⟨e1, e2, _⟩ := elimRow_shape A i p.2 r
      exact ⟨e1.trans hA.1, e2.trans hA.2⟩
  exact key (maxInColGE M i i) (swapRows M i (maxInColGE M i i).1) (by simp) (by simp)

/-- `gje` preserves the shape. -/
theorem gje_shape (M : Mx) : (gje M).rows = M.rows ∧ (gje M).cols = M.cols := by
  unfold gje
  refine foldl_pres (fun A : Mx => A.rows = M.rows ∧ A.cols = M.cols)
    _ _ _ ⟨rfl, rfl⟩ ?_
  intro A r hA
  obtain ⟨e1, e2⟩ := gjStep_shape A r
  exact ⟨e1.trans hA.1, e2.trans hA.2⟩

/-- One elimination step depends only on the logical view (square case). -/
theorem sim_gjStep (A B : Mx) (hS : Sim A B) (hsq : A.cols = A.rows) {i : Nat}
    (hi : i < A.rows) :
    Sim (gjStep A i) (gjStep B i) := by
  obtain ⟨hwfA, hwfB, hV⟩ := hS
  have h1 : A.rows = B.rows := hV.1
  have hicol : i < A.cols := by omega
  have hpe : maxInColGE A i i = maxInColGE B i i := maxInColGE_congr A B hV hicol hi
  have hp : (maxInColGE A i i).1 < A.rows := (maxInColGE_spec A i i hi).2.1
  set p := maxInColGE A i i with hpdef
  have hgA : gjStep A i =
      (List.range (swapRows A i p.1).rows).foldl
        (fun X r => if i = r then X else elimRow X i p.2 r) (swapRows A i p.1) := rfl
  have hgB : gjStep B i =
      (List.range (swapRows B i (maxInColGE B i i).1).rows).foldl
        (fun X r => if i = r then X else elimRow X i (maxInColGE B i i).2 r)
        (swapRows B i (maxInColGE B i i).1) := rfl
  rw [← hpe] at hgB
  rw [swapRows_rows] at hgA hgB
  rw [hgA, hgB, ← h1]
  have hMS : Sim (swapRows A i p.1) (swapRows B i p.1) :=
    ⟨wf_swapRows A hwfA hi hp, wf_swapRows B hwfB (h1 ▸ hi) (h1 ▸ hp),
      viewEq_swapRows A B hwfA hwfB hV hi hp⟩
  refine (foldl_rel (fun x y : Mx => Sim x y ∧ x.rows = A.rows ∧ x.cols = A.cols)
    _ _ (List.range A.rows) _ _ ⟨hMS, by simp, by simp⟩ ?_).1
  intro r hr x y hx
  obtain ⟨hSxy, hxr, hxc⟩ := hx
  rw [List.mem_range] at hr
  by_cases h : i = r
  · rw [if_pos h, if_pos h]
    exact ⟨hSxy, hxr, hxc⟩
  · rw [if_neg h, if_neg h]
    refine ⟨sim_elimRow x y hSxy p.2 (by omega) (by omega) (by omega), ?_, ?_⟩
    · rw [(elimRow_shape x i p.2 r).1, hxr]
    · rw [(elimRow_shape x i p.2 r).2.1, hxc]

/-- The full elimination depends only on the logical view (square case). -/
theorem sim_gje (A B : Mx) (hS : Sim A B) (hsq : A.cols = A.rows) :
    Sim (gje A) (gje B) := by
  have h1 : A.rows = B.rows := hS.2.2.1
  unfold gje
  rw [← h1]
  refine (foldl_rel (fun x y : Mx => Sim x y ∧ x.rows = A.rows ∧ x.cols = A.cols)
    _ _ (List.range A.rows) _ _ ⟨hS, rfl, rfl⟩ ?_).1
  intro i hi x y hx
  obtain ⟨hSxy, hxr, hxc⟩ := hx
  rw [List.mem_range] at hi
  refine ⟨sim_gjStep x y hSxy (by omega) (by omega), ?_, ?_⟩
  · rw [(gjStep_shape x i).1, hxr]
  · rw [(gjStep_shape x i).2, hxc]

/-- The diagonal product depends only on the logical view (square case). -/
theorem diagProd_congr (A B : Mx) (hV : ViewEq A B) (hsq : A.cols = A.rows) :
    diagProd A = diagProd B := by
  unfold diagProd
  rw [← hV.1]
  apply List.foldl_ext
  intro acc i hi
  rw [List.mem_range] at hi
  rw [hV.2.2 i hi i (by omega)]

/-- Length of the first `n` logical rows, flattened. -/
theorem flatten_partial_length (M : Mx) :
    ∀ n, ((List.range n).flatMap (rowList M)).length = n * M.cols := by
  intro n
  induction n with
  | zero => simp
  | succ n ih =>
      rw [List.range_succ, List.flatMap_append, List.length_append, ih]
      simp [rowList, Nat.succ_mul]

/-- Entries of a row list. -/
theorem rowList_getD (M : Mx) (i : Nat) {j : Nat} (hj : j < M.cols) :
    (rowList M i).getD j 0 = getE M i j := by
  unfold rowList
  rw [List.getD_eq_getElem _ _ (by simpa using hj), List.getElem_map, List.getElem_range]

/-- Indexing the flattened logical contents recovers the logical entries. -/
theorem flatten_partial_getD (M : Mx) :
    ∀ n, ∀ i, i < n → ∀ j, j < M.cols →
      ((List.range n).flatMap (rowList M)).getD (i * M.cols + j) 0 = getE M i j := by
  intro n
  induction n with
  | zero =>
      intro i hi
      omega
  | succ n ih =>
      intro i hi j hj
      rw [List.range_succ, List.flatMap_append]
      by_cases hin : i < n
      · rw [List.getD_append _ _ _ _ (by
          rw [flatten_partial_length]
          calc i * M.cols + j < i * M.cols + M.cols := by omega
            _ = (i + 1) * M.cols := by ring
            _ ≤ n * M.cols := Nat.mul_le_mul_right _ hin)]
        exact ih i hin j hj
      · have hieq : i = n := by omega
        subst hieq
        rw [List.getD_append_right _ _ _ _ (by
          rw [flatten_partial_length]
          omega)]
        rw [flatten_partial_length]
        have hsub : i * M.cols + j - i * M.cols = j := by omega
        rw [hsub]
        have hsingle : [i].flatMap (rowList M) = rowList M i := by simp
        rw [hsingle, rowList_getD M i hj]

/-- The spec's canonical copy is well-formed. -/
theorem wf_specCopy (M : Mx) (hwf : Wf M) : Wf (specCopy M) :=
  wf_mkMatrix _ _ _ hwf.2.2.1

/-- The spec's canonical copy has the same logical view as the original. -/
theorem viewEq_specCopy (M : Mx) : ViewEq (specCopy M) M := by
  refine ⟨rfl, rfl, ?_⟩
  intro i hi j hj
  have hi' : i < M.rows := hi
  have hj' : j < M.cols := hj
  have hg : getE (specCopy M) i j = (flatten M).getD (i * M.cols + j) 0 :=
    getE_mkMatrix M.rows M.cols (flatten M) hi' hj'
  rw [hg]
  exact flatten_partial_getD M M.rows i hi' j hj'

/-- C1: on a well-formed square matrix, `determinant()` returns exactly the
product of the diagonal entries of a copy of `M` (the spec's independent,
canonically indexed copy) after running the `gauss_jordan_elimination`
routine on that copy; on a non-square matrix it fails with `ShapeMismatch`
and returns no value. -/
theorem C1_determinant_is_diag_of_eliminated_copy (M : Mx) (hwf : Wf M) :
    (square M = true → detVal M = Except.ok (diagProd (gje (specCopy M)))) ∧
    (square M = false → determinant M = Except.error Err.shapeMismatch) := by
  constructor
  · intro hsq
    have hsq' : M.cols = M.rows := by simpa [square] using hsq
    have hd : detVal M = Except.ok (diagProd (gje M)) := by
      unfold detVal determinant
      rw [if_neg (by simp [hsq])]
      rfl
    rw [hd]
    have hS : Sim (specCopy M) M := ⟨wf_specCopy M hwf, hwf, viewEq_specCopy M⟩
    have hsc : (specCopy M).cols = (specCopy M).rows := hsq'
    have hgje := sim_gje (specCopy M) M hS hsc
    have hdg : diagProd (gje (specCopy M)) = diagProd (gje M) := by
      apply diagProd_congr _ _ hgje.2.2
      rw [(gje_shape (specCopy M)).1, (gje_shape (specCopy M)).2]
      exact hsq'
    rw [hdg]
  · intro hsq
    unfold determinant
    rw [if_pos (by simp [hsq])]

/-- Witness for C1: the square matrix `[[1,2],[3,4]]` and the non-square
2×3 matrix. -/
theorem C1_witness :
    detVal (mkMatrix 2 2 [1,2,3,4]) =
      Except.ok (diagProd (gje (specCopy (mkMatrix 2 2 [1,2,3,4])))) ∧
    determinant (mkMatrix 2 3 [1,2,3,4,5,6]) = Except.error Err.shapeMismatch :=
  ⟨(C1_determinant_is_diag_of_eliminated_copy _ (by decide)).1 (by decide),
   (C1_determinant_is_diag_of_eliminated_copy _ (by decide)).2 (by decide)⟩

end Linmath
